import Mathlib

/-!
# Verification of the WebsiteScraper crawl frontier and content pipeline

A shallow embedding, in Lean 4, of the core of the WebsiteScraper
repository: the crawl frontier of `main.py` (visited/pending state with
durable newline-delimited checkpoints), the content-extraction pipeline of
`scraper-mongo-db` (`content_filter.py`, `web_scraper.py`), the quality
validator (`content_validator.py`), and the batch persistence layer
(`mongodb_handler.py`).

Python strings are embedded as `String` / `List Char`; Python sets and
deques as lists (with explicit invariants); fallible operations as
`Except`.  External collaborators (HTTP fetching, HTML parsing, JSON
serialization, MongoDB) appear as abstract function parameters; everything
with algorithmic content is translated definition-by-definition from the
source.
-/

/-! ## Character classes (Python `str` whitespace and regex classes) -/

/-- The characters matched by Python's `\s` regex class and stripped by
`str.strip()` (ASCII core: space, tab, newline, carriage return, vertical
tab, form feed). -/
def isPyWs (c : Char) : Bool :=
  c = ' ' || c = '\t' || c = '\n' || c = '\r' || c = '\x0b' || c = '\x0c'

/-- The characters matched by the regex class `[ \t]` (horizontal
whitespace) used in `_get_clean_text`. -/
def isHT (c : Char) : Bool :=
  c = ' ' || c = '\t'

/-- Strip trailing Python whitespace from a character list
(the right half of `str.strip()`). -/
def dropTrailWs (l : List Char) : List Char :=
  (l.reverse.dropWhile isPyWs).reverse

/-- Python `str.strip()` on a character list: remove leading and trailing
whitespace. -/
def pyStrip (l : List Char) : List Char :=
  dropTrailWs (l.dropWhile isPyWs)

/-- Python `str.lower()` (character-wise lowering, as for the ASCII/German
text this scraper handles). -/
def pyLower (l : List Char) : List Char :=
  l.map Char.toLower

/-! ## URL Frontier (`main.py`)

`scrape_website` keeps `visited` (a Python `set`) and `to_visit` (a
`deque`).  We embed both as lists of strings; the visited list is used
only through membership, matching set semantics. -/

/-- The frontier state of `scrape_website`: the `visited` set and the
`to_visit` deque (`main.py` lines 79–80). -/
structure Frontier where
  visited : List String
  pending : List String
deriving DecidableEq

/-- Seeding a URL into the frontier (`main.py` lines 83–84 and 123–124):
the URL is appended to `to_visit` only if it is in neither `visited` nor
`to_visit`. -/
def seed (st : Frontier) (url : String) : Frontier :=
  if url ∉ st.visited ∧ url ∉ st.pending then
    { st with pending := st.pending ++ [url] }
  else
    st

/-- C1.  For every frontier state whose visited set and pending queue are
disjoint and whose pending queue is duplicate-free, seeding any URL
preserves this: afterwards the seeded URL appears in pending or in
visited, no URL is in both, and no URL occurs twice in pending. -/
theorem seed_preserves_frontier_invariant (st : Frontier) (url : String)
    (hdisj : ∀ u, ¬(u ∈ st.visited ∧ u ∈ st.pending))
    (hnodup : st.pending.Nodup) :
    (url ∈ (seed st url).visited ∨ url ∈ (seed st url).pending) ∧
    (∀ u, ¬(u ∈ (seed st url).visited ∧ u ∈ (seed st url).pending)) ∧
    (seed st url).pending.Nodup ∧
    (∀ u, (seed st url).pending.count u ≤ 1) := by
  unfold seed
  by_cases h : url ∉ st.visited ∧ url ∉ st.pending
  · simp only [if_pos h]
    refine ⟨Or.inr (by simp), ?_, ?_, ?_⟩
    · intro u hu
      rcases hu with ⟨hv, hp⟩
      simp only [List.mem_append, List.mem_singleton] at hp
      rcases hp with hp | rfl
      · exact hdisj u ⟨hv, hp⟩
      · exact h.1 hv
    · refine List.Nodup.append hnodup (List.nodup_singleton url) ?_
      intro a ha hb
      simp only [List.mem_singleton] at hb
      subst hb
      exact h.2 ha
    · intro u
      exact List.nodup_iff_count_le_one.1
        (List.Nodup.append hnodup (List.nodup_singleton url)
          (by intro a ha hb; simp only [List.mem_singleton] at hb;
              subst hb; exact h.2 ha)) u
  · simp only [if_neg h]
    push_neg at h
    refine ⟨?_, hdisj, hnodup, fun u => List.nodup_iff_count_le_one.1 hnodup u⟩
    by_cases hv : url ∈ st.visited
    · exact Or.inl hv
    · exact Or.inr (h hv)

/-- Witness for C1 at a concrete frontier state. -/
theorem seed_preserves_frontier_invariant_witness :
    ("c" ∈ (seed ⟨["a"], ["b"]⟩ "c").visited ∨
     "c" ∈ (seed ⟨["a"], ["b"]⟩ "c").pending) ∧
    (∀ u, ¬(u ∈ (seed ⟨["a"], ["b"]⟩ "c").visited ∧
            u ∈ (seed ⟨["a"], ["b"]⟩ "c").pending)) ∧
    (seed ⟨["a"], ["b"]⟩ "c").pending.Nodup ∧
    (∀ u, (seed ⟨["a"], ["b"]⟩ "c").pending.count u ≤ 1) :=
  seed_preserves_frontier_invariant ⟨["a"], ["b"]⟩ "c"
    (by
      intro u hu
      simp only [List.mem_singleton] at hu
      rcases hu with ⟨h1, h2⟩
      subst h1
      exact absurd h2 (by decide))
    (by decide)

/-! ## Generic list helpers for the embedding -/

/-- `(l.dropWhile p).length ≤ l.length` (termination helper). -/
theorem len_dropWhile_le (p : Char → Bool) (l : List Char) :
    (l.dropWhile p).length ≤ l.length := by
  induction l with
  | nil => simp [List.dropWhile]
  | cons c cs ih =>
    by_cases h : p c
    · simp only [List.dropWhile, h]
      exact Nat.le_succ_of_le ih
    · simp [List.dropWhile, h]

/-- Python's substring test `needle in hay` on character lists. -/
def containsSub (needle : List Char) : List Char → Bool
  | [] => needle.isEmpty
  | c :: cs => needle.isPrefixOf (c :: cs) || containsSub needle cs

/-- Python's `str.split(sep)` for a one-character separator: splits at
every occurrence, keeping empty pieces (`"".split('.') = ['']`). -/
def splitOnChar (sep : Char) : List Char → List (List Char)
  | [] => [[]]
  | c :: cs =>
    if c = sep then [] :: splitOnChar sep cs
    else
      match splitOnChar sep cs with
      | [] => [[c]]
      | p :: ps => (c :: p) :: ps

/-- Python's `str.split()` with no argument: maximal non-whitespace runs,
empty pieces discarded. -/
def pyWords : List Char → List (List Char)
  | [] => []
  | c :: cs =>
    if isPyWs c then pyWords cs
    else
      (c :: cs.takeWhile (fun x => !isPyWs x)) ::
        pyWords (cs.dropWhile (fun x => !isPyWs x))
termination_by l => l.length
decreasing_by
  · simp only [List.length_cons]
    exact Nat.lt_succ_of_le (Nat.le_refl _)
  · simp only [List.length_cons]
    exact Nat.lt_succ_of_le (len_dropWhile_le _ _)

/-! ## Quality Validator (`content_validator.py`) -/

/-- The navigation/menu keyword list of `ContentQualityValidator.__init__`
(`content_validator.py` lines 14–18). -/
def navKeywords : List String :=
  ["hauptnavigation", "navigation", "breadcrumb", "hauptmenü",
   "quick links", "sitemap", "kontakt", "impressum", "datenschutz",
   "login", "logout", "mein konto", "warenkorb", "suche"]

/-- The positive content-indicator keyword list
(`content_validator.py` lines 21–24). -/
def contentIndicators : List String :=
  ["forschung", "wissenschaft", "studium", "lehre", "universität",
   "fakultät", "institut", "professor", "dissertation", "projekt"]

/-- `sum(1 for keyword in self.nav_keywords if keyword in text)`
(`content_validator.py` line 46). -/
def navArtifactCount (text : List Char) : Nat :=
  (navKeywords.filter (fun k => containsSub k.toList text)).length

/-- `sum(1 for indicator in self.content_indicators if indicator in text)`
(`content_validator.py` line 52). -/
def qualityScoreOf (text : List Char) : Nat :=
  (contentIndicators.filter (fun k => containsSub k.toList text)).length

/-- `len([s for s in text.split('.') if len(s.strip()) > 20])`
(`content_validator.py` line 56). -/
def meaningfulSentences (text : List Char) : Nat :=
  ((splitOnChar '.' text).filter (fun s => 20 < (pyStrip s).length)).length

/-- `len(text.split('.'))` (`content_validator.py` line 57). -/
def totalSentences (text : List Char) : Nat :=
  (splitOnChar '.' text).length

/-- The dictionary built by `validate_page_content`
(`content_validator.py` lines 30–38). -/
structure ValidationResult where
  url : String
  is_valid : Bool
  issues : List String
  quality_score : Nat
  word_count : Nat
  has_navigation_artifacts : Bool
  content_density : ℚ
deriving DecidableEq

/-- The f-string of `content_validator.py` line 49: the navigation-keyword
count interpolated into a fixed message. -/
def navIssueMsg (n : Nat) : String :=
  "Contains " ++ toString n ++ " navigation keywords"

/-- The content-density computation (`content_validator.py` lines 55–59):
meaningful sentences over total sentences, `0` when there are none. -/
def contentDensity (text : List Char) : ℚ :=
  if 0 < totalSentences text then
    (meaningfulSentences text : ℚ) / (totalSentences text : ℚ)
  else 0

/-- The `issues` list accumulated by `validate_page_content`
(`content_validator.py` lines 41–65): the too-short issue, then the
navigation-keyword issue, then the low-quality issue, in appending order. -/
def issuesOf (text : List Char) : List String :=
  (if text.length < 100 then ["Content too short (< 100 characters)"] else []) ++
  (if 2 < navArtifactCount text then [navIssueMsg (navArtifactCount text)] else []) ++
  (if qualityScoreOf text < 2 ∧ contentDensity text < 1/2 then
    ["Low content quality detected"] else [])

/-- `ContentQualityValidator.validate_page_content`
(`content_validator.py` lines 26–67), as a function of the page's url and
raw text.  The text is lower-cased once; the length, navigation-artifact,
quality-score and density checks follow the source line by line, and
`is_valid` is false exactly when the length check or the low-quality check
resets it. -/
def validate_page_content (url : String) (pageText : String) : ValidationResult :=
  let text := pyLower pageText.toList
  { url := url
    is_valid := !decide (text.length < 100) &&
                !decide (qualityScoreOf text < 2 ∧ contentDensity text < 1/2)
    issues := issuesOf text
    quality_score := qualityScoreOf text
    word_count := (pyWords text).length
    has_navigation_artifacts := decide (2 < navArtifactCount text)
    content_density := contentDensity text }

/-- Lowering a string character-wise preserves its length. -/
theorem pyLower_toList_length (s : String) :
    (pyLower s.toList).length = s.length := by
  cases s with
  | mk data => simp [pyLower, String.toList]

/-- C4.  A page whose text has at least 100 characters and whose quality
score is at least 2 validates as `is_valid = true`; a page whose text is
shorter than 100 characters (in particular exactly 99) validates as
`is_valid = false` with the too-short issue recorded. -/
theorem validate_length_boundary (url text : String) :
    (100 ≤ text.length → 2 ≤ (validate_page_content url text).quality_score →
      (validate_page_content url text).is_valid = true) ∧
    (text.length < 100 →
      (validate_page_content url text).is_valid = false ∧
      "Content too short (< 100 characters)" ∈
        (validate_page_content url text).issues) := by
  have hT := pyLower_toList_length text
  constructor
  · intro h1 h2
    have h2' : 2 ≤ qualityScoreOf (pyLower text.toList) := h2
    have hshort : decide ((pyLower text.toList).length < 100) = false := by
      rw [decide_eq_false_iff_not]
      omega
    have hq : decide (qualityScoreOf (pyLower text.toList) < 2 ∧
        contentDensity (pyLower text.toList) < 1/2) = false := by
      rw [decide_eq_false_iff_not]
      intro hc
      omega
    show (!decide ((pyLower text.toList).length < 100) &&
          !decide (qualityScoreOf (pyLower text.toList) < 2 ∧
            contentDensity (pyLower text.toList) < 1/2)) = true
    rw [hshort, hq]
    rfl
  · intro h
    have hshort : decide ((pyLower text.toList).length < 100) = true := by
      rw [decide_eq_true_eq]
      omega
    constructor
    · show (!decide ((pyLower text.toList).length < 100) &&
            !decide (qualityScoreOf (pyLower text.toList) < 2 ∧
              contentDensity (pyLower text.toList) < 1/2)) = false
      rw [hshort]
      rfl
    · show "Content too short (< 100 characters)" ∈
        issuesOf (pyLower text.toList)
      unfold issuesOf
      rw [if_pos (show (pyLower text.toList).length < 100 by omega)]
      simp

/-- A 100-plus-character text containing two content indicators. -/
def c4TextLong : String :=
  "forschung wissenschaft xxxxxxxxxxxxxxxxxxxxxxxxxxxxxxxxxxxxxxxxxxxxxxxxxxxxxxxxxxxxxxxxxxxxxxxxxxxxxxxxxxxx"

/-- A 99-character text. -/
def c4TextShort : String :=
  "yyyyyyyyyyyyyyyyyyyyyyyyyyyyyyyyyyyyyyyyyyyyyyyyyyyyyyyyyyyyyyyyyyyyyyyyyyyyyyyyyyyyyyyyyyyyyyyyyyy"

/-- Witness for C4 at concrete texts on either side of the boundary. -/
theorem validate_length_boundary_witness :
    (validate_page_content "u" c4TextLong).is_valid = true ∧
    (validate_page_content "u" c4TextShort).is_valid = false ∧
    "Content too short (< 100 characters)" ∈
      (validate_page_content "u" c4TextShort).issues :=
  ⟨(validate_length_boundary "u" c4TextLong).1 (by decide) (by decide),
   ((validate_length_boundary "u" c4TextShort).2 (by decide)).1,
   ((validate_length_boundary "u" c4TextShort).2 (by decide)).2⟩

/-- The final character of a string, if any. -/
def lastChar? (s : String) : Option Char :=
  s.data.getLast?

/-- The final character of an append with nonempty right part. -/
theorem lastChar?_append (a b : String) (h : b.data ≠ []) :
    lastChar? (a ++ b) = lastChar? b := by
  simp only [lastChar?, String.data_append]
  exact List.getLast?_append_of_ne_nil a.data h

/-- The navigation-keyword issue string never coincides with the
too-short issue string (their final characters differ). -/
theorem navIssueMsg_ne_short (n : Nat) :
    navIssueMsg n ≠ "Content too short (< 100 characters)" := by
  intro h
  have h2 : lastChar? " navigation keywords" =
      lastChar? "Content too short (< 100 characters)" := by
    rw [← lastChar?_append ("Contains " ++ toString n)
      " navigation keywords" (by decide)]
    exact congrArg lastChar? h
  exact absurd h2 (by decide)

/-- The navigation-keyword issue string never coincides with the
low-quality issue string (their final characters differ). -/
theorem navIssueMsg_ne_low (n : Nat) :
    navIssueMsg n ≠ "Low content quality detected" := by
  intro h
  have h2 : lastChar? " navigation keywords" =
      lastChar? "Low content quality detected" := by
    rw [← lastChar?_append ("Contains " ++ toString n)
      " navigation keywords" (by decide)]
    exact congrArg lastChar? h
  exact absurd h2 (by decide)

/-- C6.  `validate_page_content` flags `has_navigation_artifacts` and
appends the counting issue exactly when more than two navigation keywords
occur in the lower-cased text. -/
theorem validate_navigation_flag (url text : String) :
    ((validate_page_content url text).has_navigation_artifacts =
      decide (2 < navArtifactCount (pyLower text.toList))) ∧
    (navIssueMsg (navArtifactCount (pyLower text.toList)) ∈
        (validate_page_content url text).issues ↔
      2 < navArtifactCount (pyLower text.toList)) := by
  refine ⟨rfl, ?_⟩
  have hiss : (validate_page_content url text).issues =
      issuesOf (pyLower text.toList) := rfl
  rw [hiss]
  unfold issuesOf
  constructor
  · intro hmem
    by_contra hnot
    rw [if_neg hnot] at hmem
    simp only [List.append_nil, List.mem_append] at hmem
    rcases hmem with hmem | hmem
    · split at hmem
      · simp only [List.mem_singleton] at hmem
        exact navIssueMsg_ne_short _ hmem
      · simp at hmem
    · split at hmem
      · simp only [List.mem_singleton] at hmem
        exact navIssueMsg_ne_low _ hmem
      · simp at hmem
  · intro hgt
    rw [if_pos hgt]
    simp

/-! ## Image extraction (`web_scraper.py`, `_extract_images_from_content`) -/

/-- An `<img>` element as seen through BeautifulSoup's `img.get(attr)`:
each attribute is either absent (`None`) or a string. -/
structure ImgTag where
  src : Option String
  width : Option String
  height : Option String
  title : Option String
  alt : Option String
deriving DecidableEq

/-- The `ImageData` dataclass of `model.py`. -/
structure ImageData where
  src : String
  title : Option String
  alt : Option String
deriving DecidableEq

/-- The numeric value of a nonempty all-digit character list. -/
def decDigitsVal? (l : List Char) : Option Nat :=
  if l ≠ [] ∧ l.all (fun c => c.isDigit) then
    some (l.foldl (fun acc c => 10 * acc + (c.toNat - '0'.toNat)) 0)
  else none

/-- Python's `int(s)` on a string: surrounding whitespace is ignored, an
optional sign precedes a nonempty digit run, anything else raises
`ValueError` (modelled as `none`). -/
def pyInt? (s : String) : Option Int :=
  match pyStrip s.toList with
  | '+' :: ds => (decDigitsVal? ds).map (fun n => (n : Int))
  | '-' :: ds => (decDigitsVal? ds).map (fun n => -(n : Int))
  | ds => (decDigitsVal? ds).map (fun n => (n : Int))

/-- Relative-to-absolute `src` resolution
(`web_scraper.py` lines 208–213). -/
def resolveSrc (base src : String) : String :=
  if src.startsWith "/" then base ++ src
  else if src.startsWith "./" then base ++ (src.drop 1)
  else if !(src.startsWith "http://" || src.startsWith "https://") then
    base ++ "/" ++ src
  else src

/-- The size-based skip decision of `_extract_images_from_content`
(`web_scraper.py` lines 216–223).  `if width and height:` demands both
attributes present and nonempty; then `int(width) < 50 or int(height) < 50`
is evaluated left to right, `ValueError` landing in the `pass` branch (no
skip).  In particular `int(height)` is only attempted when
`int(width) ≥ 50`. -/
def skipsImage (img : ImgTag) : Bool :=
  match img.width, img.height with
  | some w, some h =>
    if w ≠ "" ∧ h ≠ "" then
      match pyInt? w with
      | some wi =>
        if wi < 50 then true
        else
          match pyInt? h with
          | some hi => decide (hi < 50)
          | none => false
      | none => false
    else false
  | _, _ => false

/-- `_extract_images_from_content` (`web_scraper.py` lines 200–231): for
each image with a truthy `src`, resolve the URL and keep it unless the
size check skips it. -/
def extractImagesFromContent (base : String) (imgs : List ImgTag) :
    List ImageData :=
  imgs.filterMap (fun img =>
    match img.src with
    | none => none
    | some s =>
      if s = "" then none
      else if skipsImage img then none
      else some { src := resolveSrc base s, title := img.title, alt := img.alt })

/-- C5 counterexample: an image with `width="30"` and non-numeric
`height="abc"` IS skipped (Python's `or` short-circuits after
`int("30") < 50`), although the claim says a non-numeric dimension never
causes a skip. -/
theorem image_skip_shortcircuit_counterexample :
    skipsImage ⟨some "a.png", some "30", some "abc", none, none⟩ = true ∧
    pyInt? "abc" = none ∧
    extractImagesFromContent "https://www.uni-bamberg.de"
      [⟨some "a.png", some "30", some "abc", none, none⟩] = [] := by
  decide

/-- C5 (amended).  An image is skipped exactly when both `width` and
`height` are present and nonempty, `width` parses as an integer, and
either the width is below 50, or the width is at least 50 and the height
parses and is below 50.  A non-parsing width, or a non-parsing height
paired with a width of at least 50, never causes a skip; kept images are
emitted in order with their resolved src. -/
theorem image_skip_characterization (base : String) (img : ImgTag)
    (rest : List ImgTag) :
    (extractImagesFromContent base (img :: rest) =
      (match img.src with
       | none => []
       | some s =>
         if s = "" then []
         else if skipsImage img then []
         else [⟨resolveSrc base s, img.title, img.alt⟩]) ++
      extractImagesFromContent base rest) ∧
    (skipsImage img = true ↔
      ∃ w h wi, img.width = some w ∧ img.height = some h ∧ h ≠ "" ∧
        pyInt? w = some wi ∧
        (wi < 50 ∨ (50 ≤ wi ∧ ∃ hi, pyInt? h = some hi ∧ hi < 50))) := by
  constructor
  · cases hsrc : img.src with
    | none => simp [extractImagesFromContent, hsrc]
    | some s =>
      by_cases hs : s = ""
      · simp [extractImagesFromContent, hsrc, hs]
      · by_cases hk : skipsImage img
        · simp [extractImagesFromContent, hsrc, hs, hk]
        · simp [extractImagesFromContent, hsrc, hs, hk]
  · cases hw : img.width with
    | none => simp [skipsImage, hw]
    | some w =>
      cases hh : img.height with
      | none => simp [skipsImage, hw, hh]
      | some h =>
        simp only [skipsImage, hw, hh]
        by_cases hne : w ≠ "" ∧ h ≠ ""
        · rw [if_pos hne]
          cases hpw : pyInt? w with
          | none => simp [hpw]
          | some wi =>
            by_cases hlt : wi < 50
            · simp only [if_pos hlt, hpw]
              constructor
              · intro _
                exact ⟨w, h, wi, rfl, rfl, hne.2, hpw, Or.inl hlt⟩
              · intro _
                trivial
            · simp only [if_neg hlt, hpw]
              cases hph : pyInt? h with
              | none =>
                simp only []
                constructor
                · intro hfalse
                  exact absurd hfalse (by simp)
                · rintro ⟨w', h', wi', hw', hh', hne', hpw', hdisj⟩
                  injection hw' with hw'
                  injection hh' with hh'
                  subst hw'
                  subst hh'
                  rw [hpw] at hpw'
                  injection hpw' with hpw'
                  subst hpw'
                  rcases hdisj with hd | ⟨_, hi, hphi, _⟩
                  · exact absurd hd hlt
                  · rw [hph] at hphi
                    exact Option.noConfusion hphi
              | some hi =>
                simp only []
                constructor
                · intro hd
                  rw [decide_eq_true_eq] at hd
                  exact ⟨w, h, wi, rfl, rfl, hne.2, hpw,
                    Or.inr ⟨not_lt.mp hlt, hi, hph, hd⟩⟩
                · rintro ⟨w', h', wi', hw', hh', hne', hpw', hdisj⟩
                  injection hw' with hw'
                  injection hh' with hh'
                  subst hw'
                  subst hh'
                  rw [hpw] at hpw'
                  injection hpw' with hpw'
                  subst hpw'
                  rcases hdisj with hd | ⟨_, hi', hphi, hlt'⟩
                  · exact absurd hd hlt
                  · rw [hph] at hphi
                    injection hphi with hphi
                    subst hphi
                    rw [decide_eq_true_eq]
                    exact hlt'
        · rw [if_neg hne]
          constructor
          · intro hfalse
            exact absurd hfalse (by simp)
          · rintro ⟨w', h', wi', hw', hh', hne', hpw', _⟩
            injection hw' with hw'
            injection hh' with hh'
            subst hw'
            subst hh'
            push_neg at hne
            have hw0 : w ≠ "" := by
              intro hw0
              rw [hw0] at hpw'
              exact Option.noConfusion hpw'
            exact (hne' (hne hw0)).elim

/-! ## Whitespace normalization of `_get_clean_text`
(`web_scraper.py` lines 243–249)

Three `re.sub` passes followed by `str.strip()`.  Each pass is embedded as
a left-to-right scan replacing non-overlapping matches, exactly as
`re.sub` does; `\s` and `[ \t]` are `isPyWs` and `isHT`. -/

/-- `(l.takeWhile p).length ≤ l.length` (termination helper). -/
theorem len_takeWhile_le (p : Char → Bool) (l : List Char) :
    (l.takeWhile p).length ≤ l.length := by
  induction l with
  | nil => simp [List.takeWhile]
  | cons c cs ih =>
    by_cases h : p c
    · simp only [List.takeWhile, h]
      exact Nat.succ_le_succ ih
    · simp [List.takeWhile, h]

/-- The suffix of `l` strictly after its last `'\n'` (`l` itself when it
has none). -/
def afterLastNL (l : List Char) : List Char :=
  (l.reverse.takeWhile (fun c => c ≠ '\n')).reverse

theorem afterLastNL_length_le (l : List Char) :
    (afterLastNL l).length ≤ l.length := by
  unfold afterLastNL
  rw [List.length_reverse]
  calc (l.reverse.takeWhile (fun c => c ≠ '\n')).length
      ≤ l.reverse.length := len_takeWhile_le _ _
    _ = l.length := List.length_reverse l

/-- `re.sub(r'\n\s*\n\s*\n', '\n\n', text)`: a match starts at a newline
whose maximal whitespace run contains at least two further newlines; the
greedy quantifiers extend the match to the run's last newline, the match
is replaced by two newlines, and scanning resumes after it. -/
def s1 : List Char → List Char
  | [] => []
  | c :: cs =>
    if c = '\n' ∧ 2 ≤ (cs.takeWhile isPyWs).count '\n' then
      '\n' :: '\n' ::
        s1 (afterLastNL (cs.takeWhile isPyWs) ++ cs.dropWhile isPyWs)
    else c :: s1 cs
termination_by l => l.length
decreasing_by
  · simp only [List.length_cons, List.length_append]
    have h1 := afterLastNL_length_le (cs.takeWhile isPyWs)
    have h4 : (cs.takeWhile isPyWs).length + (cs.dropWhile isPyWs).length
        = cs.length := by
      rw [← List.length_append, List.takeWhile_append_dropWhile]
    omega
  · simp only [List.length_cons]
    exact Nat.lt_succ_of_le (Nat.le_refl _)

/-- `re.sub(r'[ \t]+', ' ', text)`: every maximal horizontal-whitespace
run becomes a single space. -/
def s2 : List Char → List Char
  | [] => []
  | c :: cs =>
    if isHT c then ' ' :: s2 (cs.dropWhile isHT)
    else c :: s2 cs
termination_by l => l.length
decreasing_by
  · simp only [List.length_cons]
    exact Nat.lt_succ_of_le (len_dropWhile_le _ _)
  · simp only [List.length_cons]
    exact Nat.lt_succ_of_le (Nat.le_refl _)

/-- `re.sub(r'\n[ \t]+', '\n', text)`: horizontal whitespace directly
after a newline is deleted. -/
def s3 : List Char → List Char
  | [] => []
  | c :: cs =>
    if c = '\n' then '\n' :: s3 (cs.dropWhile isHT)
    else c :: s3 cs
termination_by l => l.length
decreasing_by
  · simp only [List.length_cons]
    exact Nat.lt_succ_of_le (len_dropWhile_le _ _)
  · simp only [List.length_cons]
    exact Nat.lt_succ_of_le (Nat.le_refl _)

/-- The whitespace normalization of `_get_clean_text`
(`web_scraper.py` lines 245–249): the three substitution passes in source
order followed by `strip()`. -/
def cleanNorm (l : List Char) : List Char :=
  pyStrip (s3 (s2 (s1 l)))

/-! ## Content extraction (`content_filter.py`)

An element is abstracted by its BeautifulSoup-visible data: an identifier,
the length of `get_text(strip=True)`, its `<img>` descendants and the
block-structured text that `_get_clean_text` flattens.  A parsed document
is abstracted by its two query functions, `soup.select` (CSS selector)
and `soup.find_all` (tag name).  `extract_main_content` then copies the
chosen region and applies the removal passes to the copy; the claims below
concern which region is chosen (or that none is), which depends only on
the query results. -/

/-- An element of the parsed document: identity, stripped-text length,
image descendants, and flattened pre-normalization text. -/
structure SElem where
  eid : Nat
  textLen : Nat
  imgs : List ImgTag
  flatText : List Char
deriving DecidableEq

/-- A parsed document, abstracted by its query functions. -/
structure Doc where
  select : String → List SElem
  findAll : String → List SElem

/-- The `ContentFilterConfig` dataclass of `content_filter.py`
(lines 10–27). -/
structure ContentFilterConfig where
  main_content_selectors : List String
  remove_tags : List String
  remove_patterns : List String
  min_text_length : Nat := 50
  min_image_width : Nat := 50
  min_image_height : Nat := 50

/-- The configuration built by `UniversityContentFilter.__init__`
(`content_filter.py` lines 33–99); the selector list is in priority
order. -/
def universityConfig : ContentFilterConfig where
  main_content_selectors :=
    ["main[role=\"main\"] .content-wrapper",
     "#content-main .main-content",
     "#content-main article",
     ".page-content .content-area",
     "main[role=\"main\"]",
     "article.main-content",
     ".main-content-area",
     ".page-content",
     ".content-wrapper",
     "main",
     "article",
     "[role=\"main\"]",
     "#content",
     ".content"]
  remove_tags :=
    ["nav", "aside", "header", "footer", "script", "style", "noscript"]
  remove_patterns :=
    ["nav", "navigation", "menu", "breadcrumb", "breadcrumbs",
     "main-nav", "primary-nav", "secondary-nav",
     "sidebar", "side-bar", "widget", "aside-content",
     "social", "share", "sharing", "share-buttons",
     "meta-info", "post-meta", "entry-meta", "page-meta",
     "last-modified", "publish-date", "author-info",
     "contact-info", "address-block", "office-hours",
     "quick-links", "related-links", "see-also",
     "comment", "comments", "feedback", "rating",
     "pagination", "pager", "prev-next", "page-nav",
     "tags", "tag-list", "categories", "category-list",
     "advertisement", "ad-", "promo", "banner", "sponsored",
     "search-form", "filter", "sort-options",
     "portal-", "login-", "user-menu", "account-",
     "language-switcher", "lang-"]

/-- Python's `max(elements, key=...)` keyed by `textLen`: folds left,
replacing the current best only on a strictly greater key, so the first
maximal element wins. -/
def pyMax (e : SElem) : List SElem → SElem
  | [] => e
  | x :: xs => pyMax (if e.textLen < x.textLen then x else e) xs

/-- The selector loop of `extract_main_content`
(`content_filter.py` lines 107–114): for each selector in priority order,
if it matches, take the match with the most text and accept it when its
text length exceeds `min_text_length`, else continue. -/
def selectLoop (minLen : Nat) (doc : Doc) : List String → Option SElem
  | [] => none
  | sel :: rest =>
    match doc.select sel with
    | [] => selectLoop minLen doc rest
    | e :: es =>
      if minLen < (pyMax e es).textLen then some (pyMax e es)
      else selectLoop minLen doc rest

/-- `_find_largest_content_block` (`content_filter.py` lines 132–147):
all `div`/`section`/`article`/`main` elements with text length above
`min_text_length`, the one with the most text winning (first on ties). -/
def find_largest_content_block (cfg : ContentFilterConfig) (doc : Doc) :
    Option SElem :=
  match (["div", "section", "article", "main"].map
      (fun t => (doc.findAll t).filter
        (fun e => decide (cfg.min_text_length < e.textLen)))).flatten with
  | [] => none
  | c :: cs => some (pyMax c cs)

/-- `extract_main_content` (`content_filter.py` lines 101–130), restricted
to the selection of the content region.  (The source then applies the
removal passes to a parsed copy of the selection; an accepted region has
nonempty text, so the `if not main_content` test is `None`-ness.) -/
def extract_main_content (cfg : ContentFilterConfig) (doc : Doc) :
    Option SElem :=
  match selectLoop cfg.min_text_length doc cfg.main_content_selectors with
  | some mc => some mc
  | none => find_largest_content_block cfg doc

/-- A selector is rejected by the loop: it has no match, or its best
match does not exceed the minimum text length. -/
def selRejected (minLen : Nat) (doc : Doc) (sel : String) : Bool :=
  match doc.select sel with
  | [] => true
  | e :: es => decide ((pyMax e es).textLen ≤ minLen)

/-- The page record assembled by `scrape_page` (`web_scraper.py`
lines 156–198) after a successful fetch: url, cleaned text, images.
(The prettified HTML and the wall-clock timestamp are external output
formatting and are omitted.) -/
structure PageDataM where
  url : String
  text : List Char
  images : List ImageData
deriving DecidableEq

/-- The post-fetch body of `scrape_page` (`web_scraper.py` lines 166–191):
extract the main content; on `None` the page yields no record, otherwise
images and cleaned text are derived from the content region. -/
def scrape_page_core (cfg : ContentFilterConfig) (base url : String)
    (doc : Doc) : Option PageDataM :=
  match extract_main_content cfg doc with
  | none => none
  | some mc =>
    some { url := url
           text := cleanNorm mc.flatText
           images := extractImagesFromContent base mc.imgs }

/-- Skipping rejected selectors at the head of the loop. -/
theorem selectLoop_append_rejected (minLen : Nat) (doc : Doc)
    (pre rest : List String)
    (hpre : ∀ s ∈ pre, selRejected minLen doc s = true) :
    selectLoop minLen doc (pre ++ rest) = selectLoop minLen doc rest := by
  induction pre with
  | nil => rfl
  | cons s pre' ih =>
    have hs := hpre s (List.mem_cons_self s pre')
    have hrest : ∀ x ∈ pre', selRejected minLen doc x = true :=
      fun x hx => hpre x (List.mem_cons_of_mem s hx)
    rw [List.cons_append]
    rw [selectLoop]
    unfold selRejected at hs
    cases hsel : doc.select s with
    | nil =>
      exact ih hrest
    | cons e es =>
      rw [hsel] at hs
      have hs' : (pyMax e es).textLen ≤ minLen := of_decide_eq_true hs
      show (if minLen < (pyMax e es).textLen then some (pyMax e es)
            else selectLoop minLen doc (pre' ++ rest)) =
        selectLoop minLen doc rest
      rw [if_neg (by omega)]
      exact ih hrest

/-- `pyMax` returns an element whose key dominates the initial element and
every listed element. -/
theorem pyMax_ge (es : List SElem) (e : SElem) :
    e.textLen ≤ (pyMax e es).textLen ∧
    ∀ x ∈ es, x.textLen ≤ (pyMax e es).textLen := by
  induction es generalizing e with
  | nil => exact ⟨Nat.le_refl _, by intro x hx; cases hx⟩
  | cons y ys ih =>
    unfold pyMax
    rcases ih (if e.textLen < y.textLen then y else e) with ⟨h1, h2⟩
    constructor
    · refine Nat.le_trans ?_ h1
      by_cases h : e.textLen < y.textLen
      · rw [if_pos h]; omega
      · rw [if_neg h]
    · intro x hx
      rcases List.mem_cons.1 hx with rfl | hx'
      · refine Nat.le_trans ?_ h1
        by_cases h : e.textLen < x.textLen
        · rw [if_pos h]
        · rw [if_neg h]; omega
      · exact h2 x hx'

/-- C3.  If every selector before the higher-priority selector `hi` is
rejected, `hi` matches, and its best match exceeds `min_text_length`,
then `extract_main_content` selects `hi`'s best match — even though the
lower-priority selector `lo` also matches, with strictly more text — and
that best match has the greatest text length among `hi`'s matches. -/
theorem extract_selector_priority (doc : Doc) (cfg : ContentFilterConfig)
    (pre mid post : List String) (hi lo : String)
    (e f : SElem) (es fs : List SElem)
    (hsel : cfg.main_content_selectors = pre ++ hi :: (mid ++ lo :: post))
    (hpre : ∀ s ∈ pre, selRejected cfg.min_text_length doc s = true)
    (hhi : doc.select hi = e :: es)
    (hacc : cfg.min_text_length < (pyMax e es).textLen)
    (hlo : doc.select lo = f :: fs)
    (hmore : (pyMax e es).textLen < (pyMax f fs).textLen) :
    extract_main_content cfg doc = some (pyMax e es) ∧
    ∀ x ∈ e :: es, x.textLen ≤ (pyMax e es).textLen := by
  constructor
  · have hstep : selectLoop cfg.min_text_length doc
        (hi :: (mid ++ lo :: post)) = some (pyMax e es) := by
      rw [selectLoop, hhi]
      exact if_pos hacc
    unfold extract_main_content
    rw [hsel, selectLoop_append_rejected _ _ _ _ hpre, hstep]
  · intro x hx
    rcases List.mem_cons.1 hx with rfl | hx'
    · exact (pyMax_ge es x).1
    · exact (pyMax_ge es e).2 x hx'

/-- The higher-priority element of the C3 witness document. -/
def c3hi : SElem := ⟨0, 60, [], []⟩

/-- The lower-priority element of the C3 witness document (more text). -/
def c3lo : SElem := ⟨1, 500, [], []⟩

/-- The C3 witness document: `main` matches `c3hi`, `.content` matches
`c3lo`, nothing else matches. -/
def c3doc : Doc where
  select := fun s =>
    if s = "main" then [c3hi] else if s = ".content" then [c3lo] else []
  findAll := fun _ => []

/-- Witness for C3: under the university configuration, the `main`
selector's 60-character match beats the later `.content` selector's
500-character match. -/
theorem extract_selector_priority_witness :
    extract_main_content universityConfig c3doc = some (pyMax c3hi []) ∧
    ∀ x ∈ [c3hi], x.textLen ≤ (pyMax c3hi []).textLen :=
  extract_selector_priority c3doc universityConfig
    ["main[role=\"main\"] .content-wrapper",
     "#content-main .main-content",
     "#content-main article",
     ".page-content .content-area",
     "main[role=\"main\"]",
     "article.main-content",
     ".main-content-area",
     ".page-content",
     ".content-wrapper"]
    ["article", "[role=\"main\"]", "#content"] []
    "main" ".content" c3hi c3lo [] []
    (by decide) (by decide) (by decide) (by decide) (by decide) (by decide)

/-- C9.  If no selector is accepted and no `div`/`section`/`article`/
`main` element exceeds the minimum text length, `extract_main_content`
returns `None`, and `scrape_page` produces no page record. -/
theorem extract_none_when_no_content (cfg : ContentFilterConfig)
    (doc : Doc) (base url : String)
    (hsel : ∀ s ∈ cfg.main_content_selectors,
      selRejected cfg.min_text_length doc s = true)
    (hfall : ∀ t ∈ ["div", "section", "article", "main"],
      ∀ el ∈ doc.findAll t, el.textLen ≤ cfg.min_text_length) :
    extract_main_content cfg doc = none ∧
    scrape_page_core cfg base url doc = none := by
  have hloop : selectLoop cfg.min_text_length doc
      cfg.main_content_selectors = none := by
    have := selectLoop_append_rejected cfg.min_text_length doc
      cfg.main_content_selectors [] hsel
    rw [List.append_nil] at this
    rw [this]
    rfl
  have hfb : find_largest_content_block cfg doc = none := by
    unfold find_largest_content_block
    have hflat : (["div", "section", "article", "main"].map
        (fun t => (doc.findAll t).filter
          (fun e => decide (cfg.min_text_length < e.textLen)))).flatten
        = [] := by
      have htag : ∀ t ∈ ["div", "section", "article", "main"],
          (doc.findAll t).filter
            (fun e => decide (cfg.min_text_length < e.textLen)) = [] := by
        intro t ht
        rw [List.filter_eq_nil_iff]
        intro el hel
        rw [decide_eq_true_eq]
        push_neg
        exact hfall t ht el hel
      rw [List.flatten_eq_nil_iff]
      intro l hl
      rcases List.mem_map.1 hl with ⟨t, ht, rfl⟩
      exact htag t ht
    rw [hflat]
  have hext : extract_main_content cfg doc = none := by
    unfold extract_main_content
    rw [hloop, hfb]
  refine ⟨hext, ?_⟩
  unfold scrape_page_core
  rw [hext]

/-- The C9 witness document: no selector and no tag query matches. -/
def c9doc : Doc where
  select := fun _ => []
  findAll := fun _ => []

/-- Witness for C9 on a document with no content at all, under the
university configuration. -/
theorem extract_none_when_no_content_witness :
    extract_main_content universityConfig c9doc = none ∧
    scrape_page_core universityConfig "https://www.uni-bamberg.de"
      "https://www.uni-bamberg.de/page" c9doc = none :=
  extract_none_when_no_content universityConfig c9doc
    "https://www.uni-bamberg.de" "https://www.uni-bamberg.de/page"
    (by decide) (by decide)

/-! ## Low-content removal (`content_filter.py`,
`_remove_low_content_elements`)

A parsed HTML fragment as a tree: elements with a tag name and children,
and text nodes.  `get_text(strip=True)` concatenates the stripped text
nodes; `element.find('img')` searches the descendants.  `find_all()`
enumerates elements outermost-first, so each removal decision sees the
element's original subtree; removing an element removes its subtree, and
the pass is the structural recursion below. -/

/-- A BeautifulSoup node: a tag with children, or a string. -/
inductive Node where
  | elem (name : String) (children : List Node)
  | text (s : String)

mutual

/-- `get_text(strip=True)` with empty separator: the concatenation of the
stripped text nodes, depth-first. -/
def nodeText : Node → List Char
  | .text s => pyStrip s.toList
  | .elem _ cs => nodesText cs

/-- `nodeText` over a child list. -/
def nodesText : List Node → List Char
  | [] => []
  | n :: ns => nodeText n ++ nodesText ns

end

/-- Whether a node is an `<img>` element. -/
def isImgElem : Node → Bool
  | .elem n _ => n = "img"
  | .text _ => false

mutual

/-- `element.find('img')` is truthy: some descendant is an `<img>`. -/
def hasImgDesc : Node → Bool
  | .text _ => false
  | .elem _ cs => anyImg cs

/-- `hasImgDesc` over a child list (a child that is an image, or has an
image inside). -/
def anyImg : List Node → Bool
  | [] => false
  | n :: ns => isImgElem n || hasImgDesc n || anyImg ns

end

/-- The filler strings of `content_filter.py` line 196. -/
def fillerTexts : List (List Char) :=
  ["mehr".toList, "more".toList, "weiterlesen".toList,
   "read more".toList, "...".toList, "hier".toList]

/-- The per-element removal decision of `_remove_low_content_elements`
(`content_filter.py` lines 184–197): `img`/`br`/`hr` are kept regardless;
otherwise an element is decomposed when its text is under 10 characters
and it contains no image, or when its text is empty or a filler word. -/
def removesElement (name : String) (children : List Node) : Bool :=
  if name ∈ ["img", "br", "hr"] then false
  else
    if (nodesText children).length < 10 ∧ anyImg children = false then true
    else if nodesText children = [] ∨
        pyLower (nodesText children) ∈ fillerTexts then true
    else false

mutual

/-- The removal pass over a node (children filtered recursively). -/
def removeLowContent : Node → Node
  | .text s => .text s
  | .elem n cs => .elem n (removeLowContentList cs)

/-- The removal pass over a child list: elements whose decision says
remove are dropped with their subtrees; the rest are processed
recursively. -/
def removeLowContentList : List Node → List Node
  | [] => []
  | .text s :: ns => .text s :: removeLowContentList ns
  | .elem n cs :: ns =>
    if removesElement n cs then removeLowContentList ns
    else .elem n (removeLowContentList cs) :: removeLowContentList ns

end

/-- C10.  The low-content pass never removes an `img`, `br` or `hr`
element: the decision is always `false` for these tags, and such an
element in any child list survives the pass; in particular a bare image
with no text survives the under-10-characters rule. -/
theorem low_content_pass_keeps_img_br_hr (name : String)
    (children ns : List Node)
    (hname : name ∈ ["img", "br", "hr"])
    (hmem : Node.elem name children ∈ ns) :
    removesElement name children = false ∧
    Node.elem name (removeLowContentList children) ∈
      removeLowContentList ns := by
  have hdec : removesElement name children = false := by
    unfold removesElement
    rw [if_pos hname]
  refine ⟨hdec, ?_⟩
  induction ns with
  | nil => cases hmem
  | cons m ms ih =>
    cases m with
    | text s =>
      rcases List.mem_cons.1 hmem with heq | hmem'
      · cases heq
      · rw [removeLowContentList]
        exact List.mem_cons_of_mem _ (ih hmem')
    | elem n' cs' =>
      rcases List.mem_cons.1 hmem with heq | hmem'
      · injection heq with h1 h2
        subst h1
        subst h2
        rw [removeLowContentList, hdec]
        simp only [Bool.false_eq_true, if_false]
        exact List.mem_cons_self _ _
      · rw [removeLowContentList]
        by_cases hr : removesElement n' cs'
        · rw [if_pos hr]
          exact ih hmem'
        · rw [if_neg hr]
          exact List.mem_cons_of_mem _ (ih hmem')

/-- Witness for C10: a bare `<img>` with no text survives the pass on a
child list that also loses an empty `<div>`. -/
theorem low_content_pass_keeps_img_br_hr_witness :
    removesElement "img" [] = false ∧
    Node.elem "img" (removeLowContentList []) ∈
      removeLowContentList [Node.elem "img" [], Node.elem "div" []] :=
  low_content_pass_keeps_img_br_hr "img" []
    [Node.elem "img" [], Node.elem "div" []]
    (by decide) (by simp)

/-! ## Frontier checkpoint files (`main.py` lines 21–56)

`save_visited`/`save_pending` write one URL per line; `load_visited`/
`load_pending` iterate the file's lines, `strip()` each and keep the
nonempty ones.  A file is a character list; reading a file line by line
is splitting at newlines. -/

/-- One URL per line: each entry followed by `"\n"`, concatenated. -/
def joinLines (l : List (List Char)) : List Char :=
  (l.map (fun u => u ++ ['\n'])).flatten

/-- Python string comparison: lexicographic by code point. -/
def lexLe : List Char → List Char → Bool
  | [], _ => true
  | _ :: _, [] => false
  | a :: as, b :: bs => if a = b then lexLe as bs else decide (a < b)

/-- Insertion into a sorted list (for `sorted(visited)`). -/
def insertSorted (x : List Char) : List (List Char) → List (List Char)
  | [] => [x]
  | y :: ys => if lexLe x y then x :: y :: ys else y :: insertSorted x ys

/-- `sorted(visited)`: insertion sort under `lexLe` (same sorted result,
used by `save_visited` before writing). -/
def insSortLex : List (List Char) → List (List Char)
  | [] => []
  | x :: xs => insertSorted x (insSortLex xs)

/-- `save_visited` (`main.py` lines 33–37): the visited set, sorted, one
URL per line. -/
def save_visited (visited : List (List Char)) : List Char :=
  joinLines (insSortLex visited)

/-- `load_visited` (`main.py` lines 21–30): strip each line, keep the
truthy (nonempty) ones.  (Membership is what the caller uses.) -/
def load_visited (file : List Char) : List (List Char) :=
  ((splitOnChar '\n' file).map pyStrip).filter (fun u => !u.isEmpty)

/-- `save_pending` (`main.py` lines 52–56): the pending queue in order,
one URL per line. -/
def save_pending (pending : List (List Char)) : List Char :=
  joinLines pending

/-- `load_pending` (`main.py` lines 40–49): strip each line, keep the
truthy ones, in file order. -/
def load_pending (file : List Char) : List (List Char) :=
  ((splitOnChar '\n' file).map pyStrip).filter (fun u => !u.isEmpty)

theorem mem_insertSorted (x y : List Char) (l : List (List Char)) :
    y ∈ insertSorted x l ↔ y = x ∨ y ∈ l := by
  induction l with
  | nil => simp [insertSorted]
  | cons z zs ih =>
    unfold insertSorted
    by_cases h : lexLe x z
    · rw [if_pos h]
      simp [List.mem_cons]
    · rw [if_neg h]
      simp only [List.mem_cons, ih]
      tauto

theorem mem_insSortLex (y : List Char) (l : List (List Char)) :
    y ∈ insSortLex l ↔ y ∈ l := by
  induction l with
  | nil => simp [insSortLex]
  | cons x xs ih =>
    unfold insSortLex
    rw [mem_insertSorted]
    simp [List.mem_cons, ih]

/-- Splitting a line off: if `u` has no newline, the first piece of
`u ++ '\n' :: rest` is `u`. -/
theorem splitOnChar_append_sep (sep : Char) (u rest : List Char)
    (h : sep ∉ u) :
    splitOnChar sep (u ++ sep :: rest) = u :: splitOnChar sep rest := by
  induction u with
  | nil =>
    simp only [List.nil_append]
    rw [splitOnChar]
    rw [if_pos rfl]
  | cons c u' ih =>
    have hc : c ≠ sep := fun hcs => h (hcs ▸ List.mem_cons_self c u')
    have hu' : sep ∉ u' := fun hm => h (List.mem_cons_of_mem c hm)
    rw [List.cons_append, splitOnChar]
    rw [if_neg hc, ih hu']

/-- Splitting the saved file recovers the entries plus one trailing empty
piece. -/
theorem splitOnChar_joinLines (l : List (List Char))
    (h : ∀ u ∈ l, '\n' ∉ u) :
    splitOnChar '\n' (joinLines l) = l ++ [[]] := by
  induction l with
  | nil => rfl
  | cons u l' ih =>
    have hu : '\n' ∉ u := h u (List.mem_cons_self u l')
    have hl' : ∀ v ∈ l', '\n' ∉ v := fun v hv => h v (List.mem_cons_of_mem u hv)
    unfold joinLines
    rw [List.map_cons, List.flatten_cons, List.append_assoc,
      List.singleton_append]
    rw [splitOnChar_append_sep '\n' u _ hu]
    have := ih
    unfold joinLines at this
    rw [this hl', List.cons_append]

/-- Mapping a function that fixes every member is the identity. -/
theorem map_self_of_eq (l : List (List Char)) (f : List Char → List Char)
    (h : ∀ u ∈ l, f u = u) : l.map f = l := by
  induction l with
  | nil => rfl
  | cons u l' ih =>
    rw [List.map_cons, h u (List.mem_cons_self u l'),
      ih (fun v hv => h v (List.mem_cons_of_mem u hv))]

/-- Loading the saved line file recovers exactly the entries, when each is
newline-free, strip-invariant and nonempty. -/
theorem load_joinLines (l : List (List Char))
    (h : ∀ u ∈ l, '\n' ∉ u ∧ pyStrip u = u ∧ u ≠ []) :
    ((splitOnChar '\n' (joinLines l)).map pyStrip).filter
      (fun u => !u.isEmpty) = l := by
  rw [splitOnChar_joinLines l (fun u hu => (h u hu).1)]
  rw [List.map_append, List.filter_append]
  have h2 : ([([] : List Char)].map pyStrip).filter (fun u => !u.isEmpty)
      = [] := rfl
  rw [h2, List.append_nil]
  rw [map_self_of_eq l pyStrip (fun u hu => (h u hu).2.1)]
  refine List.filter_eq_self.2 (fun u hu => ?_)
  have hne := (h u hu).2.2
  simp [List.isEmpty_iff, hne]

/-- C7 counterexample: the URL `" a"` is newline-free and nonempty, yet
saving and loading the visited set drops its leading space: the loaded
set is `{"a"}`, not `{" a"}`. -/
theorem frontier_roundtrip_counterexample :
    load_visited (save_visited [[' ', 'a']]) = [['a']] ∧
    [' ', 'a'] ∉ load_visited (save_visited [[' ', 'a']]) := by
  decide

/-- C7 (amended).  For URLs that are newline-free, nonempty and free of
leading/trailing whitespace (strip-invariant), save-then-load reproduces
the visited set up to membership and the pending queue exactly. -/
theorem frontier_roundtrip (visited pending : List (List Char))
    (hv : ∀ u ∈ visited, '\n' ∉ u ∧ pyStrip u = u ∧ u ≠ [])
    (hp : ∀ u ∈ pending, '\n' ∉ u ∧ pyStrip u = u ∧ u ≠ []) :
    (∀ x, x ∈ load_visited (save_visited visited) ↔ x ∈ visited) ∧
    load_pending (save_pending pending) = pending := by
  constructor
  · intro x
    unfold load_visited save_visited
    rw [load_joinLines (insSortLex visited)
      (fun u hu => hv u ((mem_insSortLex u visited).1 hu))]
    exact mem_insSortLex x visited
  · unfold load_pending save_pending
    exact load_joinLines pending hp

/-- Witness for C7 (amended) at a concrete frontier state. -/
theorem frontier_roundtrip_witness :
    (['a'] ∈ load_visited (save_visited [['a'], ['b']]) ↔
      ['a'] ∈ [['a'], ['b']]) ∧
    load_pending (save_pending [['c']]) = [['c']] :=
  ⟨(frontier_roundtrip [['a'], ['b']] [['c']]
      (by decide) (by decide)).1 ['a'],
   (frontier_roundtrip [['a'], ['b']] [['c']]
      (by decide) (by decide)).2⟩

/-! ## Crawl loop and batch flush error handling
(`main.py` lines 69–152, `mongodb_handler.py` lines 60–87)

The network, JSON serialization and file I/O are abstract outcomes in a
`CrawlEnv`; the control flow of `scrape_website` — including the per-URL
`try`/`except Exception: continue` that encloses the in-loop flush and
checkpoint writes (lines 100–143) — is translated directly.  The body
returns `Except`, an error carrying the state at the raise point (Python
mutations before a raise persist); the loop's handler turns any error into
a `continue`.  The `while` loop is run on explicit fuel. -/

/-- A raised Python exception. -/
inductive PyExn where
  | exn (msg : String)
deriving DecidableEq

/-- A successful `requests.get` with parsed page: status code, extracted
text (`soup.get_text`), and the link targets after `urljoin` resolution. -/
structure FetchOk where
  status : Nat
  text : String
  links : List String
deriving DecidableEq

/-- The external collaborators of `scrape_website`: fetching, the byte
sizes computed by `json.dumps(...).encode()`, and the outcomes of
`flush_data`, `save_visited` and `save_pending` (file I/O). -/
structure CrawlEnv where
  fetch : String → Except PyExn FetchOk
  recordSize : String → String → Nat
  dataSize : List (String × String) → Nat
  flushOutcome : Nat → Except PyExn Unit
  saveVisitedOutcome : Except PyExn Unit
  savePendingOutcome : Except PyExn Unit

/-- The mutable state of `scrape_website`'s loop (`main.py`
lines 79–89). -/
structure CrawlState where
  visited : List String
  pending : List String
  data : List (String × String)
  batchIndex : Nat
  count : Nat
  totalSize : Nat
deriving DecidableEq

/-- `HUNDRED_MB = 1000000 * 100` (`main.py` line 11). -/
def HUNDRED_MB : Nat := 1000000 * 100

/-- `ONE_GB` (`main.py` line 10). -/
def ONE_GB : Nat := 1073741824

/-- `MAX_TOTAL_SIZE = 20 * ONE_GB` (`main.py` line 13). -/
def MAX_TOTAL_SIZE : Nat := 20 * ONE_GB

/-- The link-queueing loop (`main.py` lines 118–124): each resolved link
is appended to the growing pending queue when it is in-domain and in
neither `visited` nor the queue. -/
def seedLinks (base : String) (visited : List String)
    (pending : List String) : List String → List String
  | [] => pending
  | l :: ls =>
    if l.startsWith base ∧ l ∉ visited ∧ l ∉ pending then
      seedLinks base visited (pending ++ [l]) ls
    else
      seedLinks base visited pending ls

/-- `set.add` on the visited list. -/
def addVisited (visited : List String) (url : String) : List String :=
  if url ∈ visited then visited else visited ++ [url]

/-- The `try` block of `scrape_website` (`main.py` lines 100–139) for one
URL: fetch; skip non-200; append the record and update counters; seed
links; flush and checkpoint when the serialized batch reaches
`HUNDRED_MB` (clearing the batch only after all three writes succeed);
break when `MAX_TOTAL_SIZE` is reached.  An exception from any step
(fetch, flush, checkpoint) is returned together with the state already
mutated before the raise; `Bool` is the `break` flag. -/
def scrapeBody (env : CrawlEnv) (base url : String) (st : CrawlState) :
    Except (PyExn × CrawlState) (CrawlState × Bool) :=
  match env.fetch url with
  | .error e => .error (e, st)
  | .ok r =>
    if r.status ≠ 200 then .ok (st, false)
    else
      let rs := env.recordSize url r.text
      let st1 : CrawlState :=
        { st with data := st.data ++ [(url, r.text)],
                  count := st.count + 1,
                  totalSize := st.totalSize + rs }
      let st2 : CrawlState :=
        { st1 with pending := seedLinks base st1.visited st1.pending r.links }
      if HUNDRED_MB ≤ env.dataSize st2.data then
        match env.flushOutcome st2.batchIndex with
        | .error e => .error (e, st2)
        | .ok _ =>
          match env.saveVisitedOutcome with
          | .error e => .error (e, st2)
          | .ok _ =>
            match env.savePendingOutcome with
            | .error e => .error (e, st2)
            | .ok _ =>
              let st3 : CrawlState :=
                { st2 with data := [], batchIndex := st2.batchIndex + 1 }
              if MAX_TOTAL_SIZE ≤ st3.totalSize then .ok (st3, true)
              else .ok (st3, false)
      else
        if MAX_TOTAL_SIZE ≤ st2.totalSize then .ok (st2, true)
        else .ok (st2, false)

/-- The `while` loop of `scrape_website` (`main.py` lines 93–143) on
fuel: pop a URL, skip it if visited, mark it visited, run the body; the
`except Exception` handler (lines 141–143) logs and `continue`s, so a
body error never leaves the loop. -/
def crawlLoop (env : CrawlEnv) (base : String) (maxPages : Nat) :
    Nat → CrawlState → CrawlState
  | 0, st => st
  | fuel + 1, st =>
    if st.pending = [] ∨ ¬(maxPages = 0 ∨ st.count < maxPages) ∨
        MAX_TOTAL_SIZE ≤ st.totalSize then st
    else
      match st.pending with
      | [] => st
      | url :: rest =>
        if url ∈ st.visited then
          crawlLoop env base maxPages fuel { st with pending := rest }
        else
          match scrapeBody env base url
              { st with pending := rest,
                        visited := addVisited st.visited url } with
          | .ok (s, true) => s
          | .ok (s, false) => crawlLoop env base maxPages fuel s
          | .error (_, s) => crawlLoop env base maxPages fuel s

/-- `scrape_website` (`main.py` lines 69–152): seed the base URL, run the
loop, then perform the final flush and the two checkpoint saves — these
are outside the `try`, so their errors do propagate out. -/
def scrape_website (env : CrawlEnv) (base : String) (maxPages fuel : Nat)
    (visited0 pending0 : List String) : Except PyExn (Nat × CrawlState) :=
  let start : CrawlState :=
    { visited := visited0
      pending :=
        if base ∉ visited0 ∧ base ∉ pending0 then pending0 ++ [base]
        else pending0
      data := [], batchIndex := 1, count := 0, totalSize := 0 }
  let fin := crawlLoop env base maxPages fuel start
  match (if fin.data.isEmpty then Except.ok () else env.flushOutcome fin.batchIndex) with
  | .error e => .error e
  | .ok _ =>
    match env.saveVisitedOutcome with
    | .error e => .error e
    | .ok _ =>
      match env.savePendingOutcome with
      | .error e => .error e
      | .ok _ => .ok (fin.count, fin)

/-- The result object of `collection.bulk_write`. -/
structure BulkWriteResult where
  upserted_count : Nat
  modified_count : Nat
deriving DecidableEq

/-- `MongoDBHandler.save_pages_batch` (`mongodb_handler.py` lines 60–87):
empty batches are a no-op; the bulk write's `PyMongoError` is caught,
logged, and converted into a return of `0` — it does not propagate. -/
def save_pages_batch
    (bulkWrite : List (String × String) → Except PyExn BulkWriteResult)
    (pages : List (String × String)) : Nat :=
  if pages.isEmpty then 0
  else
    match bulkWrite pages with
    | .ok r => r.upserted_count + r.modified_count
    | .error _ => 0

/-- A crawl environment whose flush always fails with a disk error and
whose fetches always succeed with a batch-threshold-sized record. -/
def c2env : CrawlEnv where
  fetch := fun _ => .ok ⟨200, "T", []⟩
  recordSize := fun _ _ => 1
  dataSize := fun d => if d.isEmpty then 0 else HUNDRED_MB
  flushOutcome := fun _ => .error (.exn "disk full")
  saveVisitedOutcome := .ok ()
  savePendingOutcome := .ok ()

/-- Two pending URLs, nothing visited. -/
def c2start : CrawlState :=
  ⟨[], ["http://x/a", "http://x/b"], [], 1, 0, 0⟩

/-- C2 counterexample: with a flush that raises a disk error on every
batch write, the crawl loop still scrapes both pending pages — the
I/O error raised during the first page's batch flush is caught by the
per-URL handler and the run continues instead of terminating; likewise
`save_pages_batch` converts a failing bulk write into a return of `0`. -/
theorem flush_error_swallowed_counterexample :
    (crawlLoop c2env "http://x/" 0 5 c2start).count = 2 ∧
    c2env.flushOutcome 1 = .error (.exn "disk full") ∧
    save_pages_batch (fun _ => .error (.exn "disk full")) [("u", "d")] = 0 :=
  ⟨by decide, rfl, rfl⟩

/-- C2 (amended).  A `Sink`/`Frontier` I/O error raised during the
in-loop batch flush (or anywhere in the per-URL body) is caught by the
`except Exception` handler: the loop continues with the state as mutated
up to the raise, and `save_pages_batch` converts a failing bulk write
into a `0` return rather than propagating. -/
theorem flush_error_swallowed (env : CrawlEnv) (base : String)
    (maxPages fuel : Nat) (st : CrawlState) (url : String)
    (rest : List String) (e : PyExn) (st' : CrawlState)
    (hpending : st.pending = url :: rest)
    (hpages : maxPages = 0 ∨ st.count < maxPages)
    (hsize : st.totalSize < MAX_TOTAL_SIZE)
    (hnotvisited : url ∉ st.visited)
    (hbody : scrapeBody env base url
        { st with pending := rest,
                  visited := addVisited st.visited url } = .error (e, st')) :
    crawlLoop env base maxPages (fuel + 1) st =
      crawlLoop env base maxPages fuel st' ∧
    (∀ bw pages e', bw pages = .error e' → pages ≠ [] →
      save_pages_batch bw pages = 0) := by
  constructor
  · have hcond : ¬(st.pending = [] ∨ ¬(maxPages = 0 ∨ st.count < maxPages) ∨
        MAX_TOTAL_SIZE ≤ st.totalSize) := by
      push_neg
      exact ⟨by rw [hpending]; exact List.cons_ne_nil url rest, hpages,
        by omega⟩
    show (if st.pending = [] ∨ ¬(maxPages = 0 ∨ st.count < maxPages) ∨
        MAX_TOTAL_SIZE ≤ st.totalSize then st
      else
        match st.pending with
        | [] => st
        | url :: rest =>
          if url ∈ st.visited then
            crawlLoop env base maxPages fuel { st with pending := rest }
          else
            match scrapeBody env base url
                { st with pending := rest,
                          visited := addVisited st.visited url } with
            | .ok (s, true) => s
            | .ok (s, false) => crawlLoop env base maxPages fuel s
            | .error (_, s) => crawlLoop env base maxPages fuel s) =
      crawlLoop env base maxPages fuel st'
    rw [if_neg hcond, hpending]
    show (if url ∈ st.visited then
        crawlLoop env base maxPages fuel { st with pending := rest }
      else
        match scrapeBody env base url
            { st with pending := rest,
                      visited := addVisited st.visited url } with
        | .ok (s, true) => s
        | .ok (s, false) => crawlLoop env base maxPages fuel s
        | .error (_, s) => crawlLoop env base maxPages fuel s) =
      crawlLoop env base maxPages fuel st'
    rw [if_neg hnotvisited, hbody]
  · intro bw pages e' hbw hne
    unfold save_pages_batch
    rw [if_neg (by simpa [List.isEmpty_iff] using hne), hbw]

/-- Witness for C2 (amended) at the concrete failing-flush environment:
processing the first pending URL hits the flush error and the loop
continues on the mutated state. -/
theorem flush_error_swallowed_witness :
    crawlLoop c2env "http://x/" 0 5 c2start =
      crawlLoop c2env "http://x/" 0 4
        ⟨["http://x/a"], ["http://x/b"], [("http://x/a", "T")], 1, 1, 1⟩ ∧
    (∀ bw pages e', bw pages = .error e' → pages ≠ [] →
      save_pages_batch bw pages = 0) :=
  flush_error_swallowed c2env "http://x/" 0 4 c2start "http://x/a"
    ["http://x/b"] (.exn "disk full")
    ⟨["http://x/a"], ["http://x/b"], [("http://x/a", "T")], 1, 1, 1⟩
    rfl (Or.inl rfl) (by decide) (by decide) rfl

/-! ## Idempotence of the whitespace normalization (C8)

The invariant: a string is *normal* when no position starts a match of
`\n\s*\n\s*\n` (`hasTriple`), it has no tab, no two adjacent horizontal
whitespace characters, no horizontal whitespace directly after a newline,
and no leading or trailing whitespace.  Every `cleanNorm` output is
normal, and `cleanNorm` fixes every normal string. -/

/-- Some position starts a `\n\s*\n\s*\n` match: a newline whose
following whitespace run holds two more newlines. -/
def hasTriple : List Char → Bool
  | [] => false
  | c :: cs =>
    if c = '\n' ∧ 2 ≤ (cs.takeWhile isPyWs).count '\n' then true
    else hasTriple cs

/-- No adjacent pair satisfies `p`-then-`q`. -/
def noPair (p q : Char → Bool) : List Char → Bool
  | [] => true
  | [_] => true
  | a :: b :: t => !(p a && q b) && noPair p q (b :: t)

theorem hasTriple_cons (c : Char) (cs : List Char) :
    hasTriple (c :: cs) =
      if c = '\n' ∧ 2 ≤ (cs.takeWhile isPyWs).count '\n' then true
      else hasTriple cs := by
  rw [hasTriple]

theorem hasTriple_tail {c : Char} {cs : List Char}
    (h : hasTriple (c :: cs) = false) : hasTriple cs = false := by
  rw [hasTriple_cons] at h
  by_cases hg : c = '\n' ∧ 2 ≤ (cs.takeWhile isPyWs).count '\n'
  · rw [if_pos hg] at h
    cases h
  · rwa [if_neg hg] at h

theorem hasTriple_notNL {c : Char} {cs : List Char} (h : ¬ c = '\n') :
    hasTriple (c :: cs) = hasTriple cs := by
  rw [hasTriple_cons, if_neg (fun hg => h hg.1)]

/-- Newline count of a `takeWhile` prefix grows with the list. -/
theorem count_takeWhile_le_append (p : Char → Bool) (l m : List Char) :
    ((l.takeWhile p).count '\n') ≤ (((l ++ m).takeWhile p).count '\n') := by
  induction l with
  | nil => simp [List.takeWhile]
  | cons c cs ih =>
    by_cases h : p c
    · rw [List.cons_append, List.takeWhile_cons_of_pos h,
        List.takeWhile_cons_of_pos h]
      rcases eq_or_ne c '\n' with rfl | hne
      · rw [List.count_cons_self, List.count_cons_self]
        omega
      · rw [List.count_cons_of_ne (Ne.symm hne),
          List.count_cons_of_ne (Ne.symm hne)]
        exact ih
    · rw [List.cons_append, List.takeWhile_cons_of_neg h,
        List.takeWhile_cons_of_neg h]

/-- `hasTriple` is monotone from a list to its extensions on the right. -/
theorem hasTriple_of_append_left {l m : List Char}
    (h : hasTriple (l ++ m) = false) : hasTriple l = false := by
  induction l with
  | nil => rfl
  | cons c cs ih =>
    rw [List.cons_append] at h
    have htail := hasTriple_tail h
    rw [hasTriple_cons] at h ⊢
    by_cases hg : c = '\n' ∧ 2 ≤ (cs.takeWhile isPyWs).count '\n'
    · exfalso
      have hg2 : c = '\n' ∧
          2 ≤ (((cs ++ m).takeWhile isPyWs).count '\n') :=
        ⟨hg.1, Nat.le_trans hg.2 (count_takeWhile_le_append isPyWs cs m)⟩
      rw [if_pos hg2] at h
      cases h
    · rw [if_neg hg]
      exact ih htail

theorem hasTriple_dropWhile (p : Char → Bool) {l : List Char}
    (h : hasTriple l = false) : hasTriple (l.dropWhile p) = false := by
  induction l with
  | nil => exact h
  | cons c cs ih =>
    by_cases hc : p c
    · rw [List.dropWhile_cons_of_pos hc]
      exact ih (hasTriple_tail h)
    · rwa [List.dropWhile_cons_of_neg hc]

theorem noPair_tail {p q : Char → Bool} {c : Char} {cs : List Char}
    (h : noPair p q (c :: cs) = true) : noPair p q cs = true := by
  cases cs with
  | nil => rfl
  | cons b t =>
    rw [noPair] at h
    exact (Bool.and_eq_true_iff.1 h).2

theorem noPair_dropWhile (p q r : Char → Bool) {l : List Char}
    (h : noPair p q l = true) : noPair p q (l.dropWhile r) = true := by
  induction l with
  | nil => exact h
  | cons c cs ih =>
    by_cases hc : r c
    · rw [List.dropWhile_cons_of_pos hc]
      exact ih (noPair_tail h)
    · rwa [List.dropWhile_cons_of_neg hc]

theorem noPair_of_append_left {p q : Char → Bool} {l m : List Char}
    (h : noPair p q (l ++ m) = true) : noPair p q l = true := by
  induction l with
  | nil => rfl
  | cons c cs ih =>
    cases cs with
    | nil => rfl
    | cons b t =>
      have h' : noPair p q (c :: b :: (t ++ m)) = true := by
        simpa using h
      rw [noPair] at h'
      rcases Bool.and_eq_true_iff.1 h' with ⟨h3, h4⟩
      rw [noPair, Bool.and_eq_true_iff]
      exact ⟨h3, ih (by simpa using h4)⟩

theorem takeWhile_append_all {p : Char → Bool} {w : List Char}
    (X : List Char) (h : ∀ x ∈ w, p x = true) :
    (w ++ X).takeWhile p = w ++ X.takeWhile p := by
  induction w with
  | nil => simp
  | cons c cs ih =>
    have hc : p c = true := h c (List.mem_cons_self c cs)
    rw [List.cons_append, List.takeWhile_cons_of_pos hc, List.cons_append,
      ih (fun x hx => h x (List.mem_cons_of_mem c hx))]

theorem mem_of_mem_takeWhile {p : Char → Bool} {l : List Char} {x : Char}
    (h : x ∈ l.takeWhile p) : x ∈ l := by
  induction l with
  | nil => cases h
  | cons c cs ih =>
    by_cases hc : p c
    · rw [List.takeWhile_cons_of_pos hc] at h
      rcases List.mem_cons.1 h with rfl | h2
      · exact List.mem_cons_self x cs
      · exact List.mem_cons_of_mem c (ih h2)
    · rw [List.takeWhile_cons_of_neg hc] at h
      cases h

theorem afterLastNL_no_nl (l : List Char) : '\n' ∉ afterLastNL l := by
  unfold afterLastNL
  intro h
  rw [List.mem_reverse] at h
  have := List.mem_takeWhile_imp h
  simp at this

theorem mem_afterLastNL {x : Char} {l : List Char}
    (h : x ∈ afterLastNL l) : x ∈ l := by
  unfold afterLastNL at h
  rw [List.mem_reverse] at h
  have := mem_of_mem_takeWhile h
  rwa [List.mem_reverse] at this

/-- The head of a `dropWhile` fails the predicate. -/
theorem dropWhile_shape (p : Char → Bool) (l : List Char) :
    l.dropWhile p = [] ∨
    ∃ x xs, l.dropWhile p = x :: xs ∧ p x = false := by
  induction l with
  | nil => exact Or.inl rfl
  | cons c cs ih =>
    by_cases hc : p c
    · rwa [List.dropWhile_cons_of_pos hc]
    · exact Or.inr ⟨c, cs, List.dropWhile_cons_of_neg hc,
        Bool.eq_false_iff.2 hc⟩

/-- A whitespace run with at most one newline is scanned without a match:
`s1` copies it and continues after it. -/
theorem s1_ws_run : ∀ cs : List Char,
    ((cs.takeWhile isPyWs).count '\n') ≤ 1 →
    s1 cs = cs.takeWhile isPyWs ++ s1 (cs.dropWhile isPyWs) := by
  intro cs
  induction cs with
  | nil => intro _; rfl
  | cons c cs' ih =>
    intro h
    by_cases hws : isPyWs c
    · have htk : (c :: cs').takeWhile isPyWs = c :: cs'.takeWhile isPyWs :=
        List.takeWhile_cons_of_pos hws
      have hdw : (c :: cs').dropWhile isPyWs = cs'.dropWhile isPyWs :=
        List.dropWhile_cons_of_pos hws
      by_cases hnl : c = '\n'
      · subst hnl
        rw [htk, List.count_cons_self] at h
        have h0 : ((cs'.takeWhile isPyWs).count '\n') = 0 := by omega
        have hguard : ¬('\n' = '\n' ∧
            2 ≤ ((cs'.takeWhile isPyWs).count '\n')) := by
          intro hg
          omega
        rw [s1, if_neg hguard, htk, hdw, List.cons_append,
          ih (by omega)]
      · have hguard : ¬(c = '\n' ∧
            2 ≤ ((cs'.takeWhile isPyWs).count '\n')) :=
          fun hg => hnl hg.1
        rw [htk, List.count_cons_of_ne (Ne.symm hnl)] at h
        rw [s1, if_neg hguard, htk, hdw, List.cons_append, ih h]
    · have hnl : ¬ c = '\n' := fun hc => hws (hc ▸ (by decide))
      have hguard : ¬(c = '\n' ∧
          2 ≤ ((cs'.takeWhile isPyWs).count '\n')) :=
        fun hg => hnl hg.1
      rw [List.takeWhile_cons_of_neg hws, List.dropWhile_cons_of_neg hws,
        List.nil_append]

/-- After `s1`, the leading whitespace run of a ≤1-newline input is
unchanged. -/
theorem takeWhile_ws_s1 (cs : List Char)
    (h : ((cs.takeWhile isPyWs).count '\n') ≤ 1) :
    (s1 cs).takeWhile isPyWs = cs.takeWhile isPyWs := by
  rw [s1_ws_run cs h]
  rw [takeWhile_append_all _ (fun x hx => List.mem_takeWhile_imp hx)]
  have hrest : (s1 (cs.dropWhile isPyWs)).takeWhile isPyWs = [] := by
    rcases dropWhile_shape isPyWs cs with hnil | ⟨x, xs, heq, hx⟩
    · rw [hnil, s1]
      rfl
    · rw [heq]
      have hxnl : ¬ x = '\n' := by
        intro hc
        subst hc
        simp [isPyWs] at hx
      have hguard : ¬(x = '\n' ∧
          2 ≤ ((xs.takeWhile isPyWs).count '\n')) :=
        fun hg => hxnl hg.1
      rw [s1, if_neg hguard, List.takeWhile_cons_of_neg (by simp [hx])]
  rw [hrest, List.append_nil]

/-- The output of the triple-newline pass has no remaining match. -/
theorem hasTriple_s1 : ∀ l : List Char, hasTriple (s1 l) = false := by
  intro l
  induction l using s1.induct with
  | case1 =>
    rw [s1]
    rfl
  | case2 c cs hg ih =>
    rw [s1, if_pos hg]
    have hall : ∀ x ∈ afterLastNL (cs.takeWhile isPyWs), isPyWs x = true :=
      fun x hx => List.mem_takeWhile_imp (mem_afterLastNL hx)
    have hnl : '\n' ∉ afterLastNL (cs.takeWhile isPyWs) :=
      afterLastNL_no_nl _
    have hcount0 :
        (((afterLastNL (cs.takeWhile isPyWs) ++ cs.dropWhile isPyWs).takeWhile
          isPyWs).count '\n') = 0 := by
      rw [takeWhile_append_all _ hall]
      have hrest : ((cs.dropWhile isPyWs).takeWhile isPyWs) = [] := by
        rcases dropWhile_shape isPyWs cs with hnil | ⟨x, xs, heq, hx⟩
        · rw [hnil]
          rfl
        · rw [heq, List.takeWhile_cons_of_neg (by simp [hx])]
      rw [hrest, List.append_nil, List.count_eq_zero]
      exact hnl
    have htw : ((s1 (afterLastNL (cs.takeWhile isPyWs) ++
        cs.dropWhile isPyWs)).takeWhile isPyWs).count '\n' = 0 := by
      rw [takeWhile_ws_s1 _ (by omega)]
      exact hcount0
    rw [hasTriple_cons]
    have hg1 : ¬(('\n' : Char) = '\n' ∧ 2 ≤
        ((('\n' :: s1 (afterLastNL (cs.takeWhile isPyWs) ++
          cs.dropWhile isPyWs)).takeWhile isPyWs).count '\n')) := by
      rw [List.takeWhile_cons_of_pos (by decide), List.count_cons_self, htw]
      intro hcontra
      omega
    rw [if_neg hg1, hasTriple_cons]
    have hg2 : ¬(('\n' : Char) = '\n' ∧ 2 ≤
        (((s1 (afterLastNL (cs.takeWhile isPyWs) ++
          cs.dropWhile isPyWs)).takeWhile isPyWs).count '\n')) := by
      rw [htw]
      intro hcontra
      omega
    rw [if_neg hg2]
    exact ih
  | case3 c cs hg ih =>
    rw [s1, if_neg hg]
    by_cases hc : c = '\n'
    · subst hc
      have hle : ((cs.takeWhile isPyWs).count '\n') ≤ 1 := by
        by_contra hgt
        exact hg ⟨rfl, by omega⟩
      rw [hasTriple_cons, takeWhile_ws_s1 cs hle]
      rw [if_neg (fun hcontra => by omega)]
      exact ih
    · rw [hasTriple_notNL hc]
      exact ih

/-- A match-free string is a fixed point of the triple-newline pass. -/
theorem s1_fix {l : List Char} (h : hasTriple l = false) : s1 l = l := by
  induction l with
  | nil => rw [s1]
  | cons c cs ih =>
    rw [hasTriple_cons] at h
    by_cases hg : c = '\n' ∧ 2 ≤ ((cs.takeWhile isPyWs).count '\n')
    · rw [if_pos hg] at h
      cases h
    · rw [if_neg hg] at h
      rw [s1, if_neg hg, ih h]

theorem ht_ws {c : Char} (h : isHT c = true) : isPyWs c = true := by
  simp only [isHT, Bool.or_eq_true, decide_eq_true_eq] at h
  rcases h with h | h <;> subst h <;> decide

theorem ht_ne_nl {c : Char} (h : isHT c = true) : ¬ c = '\n' := by
  intro hc
  subst hc
  simp [isHT] at h

theorem mem_of_mem_dropWhile {p : Char → Bool} {l : List Char} {x : Char}
    (h : x ∈ l.dropWhile p) : x ∈ l := by
  induction l with
  | nil => cases h
  | cons c cs ih =>
    by_cases hc : p c
    · rw [List.dropWhile_cons_of_pos hc] at h
      exact List.mem_cons_of_mem c (ih h)
    · rwa [List.dropWhile_cons_of_neg hc] at h

theorem dropWhile_dropWhile (p : Char → Bool) (l : List Char) :
    (l.dropWhile p).dropWhile p = l.dropWhile p := by
  rcases dropWhile_shape p l with hnil | ⟨x, xs, heq, hx⟩
  · rw [hnil]
    rfl
  · rw [heq, List.dropWhile_cons_of_neg (by simp [hx])]

/-- Dropping leading horizontal whitespace changes neither the newline
count of the whitespace prefix nor `hasTriple`. -/
theorem count_nl_takeWhile_dropHT (l : List Char) :
    (((l.dropWhile isHT).takeWhile isPyWs).count '\n') =
    ((l.takeWhile isPyWs).count '\n') := by
  induction l with
  | nil => rfl
  | cons c cs ih =>
    by_cases hc : isHT c
    · rw [List.dropWhile_cons_of_pos hc,
        List.takeWhile_cons_of_pos (ht_ws hc),
        List.count_cons_of_ne (fun h => (ht_ne_nl hc) h.symm)]
      exact ih
    · rw [List.dropWhile_cons_of_neg hc]

theorem hasTriple_dropHT (l : List Char) :
    hasTriple (l.dropWhile isHT) = hasTriple l := by
  induction l with
  | nil => rfl
  | cons c cs ih =>
    by_cases hc : isHT c
    · rw [List.dropWhile_cons_of_pos hc, hasTriple_notNL (ht_ne_nl hc)]
      exact ih
    · rw [List.dropWhile_cons_of_neg hc]

/-- The space-collapsing pass preserves the newline count of the leading
whitespace run. -/
theorem count_nl_takeWhile_s2 : ∀ l : List Char,
    (((s2 l).takeWhile isPyWs).count '\n') =
    ((l.takeWhile isPyWs).count '\n') := by
  intro l
  induction l using s2.induct with
  | case1 =>
    rw [s2]
  | case2 c cs hc ih =>
    rw [s2, if_pos hc,
      List.takeWhile_cons_of_pos (show isPyWs ' ' = true by decide),
      List.count_cons_of_ne (by decide),
      List.takeWhile_cons_of_pos (ht_ws hc),
      List.count_cons_of_ne (fun h => (ht_ne_nl hc) h.symm), ih,
      count_nl_takeWhile_dropHT]
  | case3 c cs hc ih =>
    rw [s2, if_neg hc]
    by_cases hws : isPyWs c
    · rw [List.takeWhile_cons_of_pos hws, List.takeWhile_cons_of_pos hws]
      rcases eq_or_ne c '\n' with rfl | hne
      · rw [List.count_cons_self, List.count_cons_self, ih]
      · rw [List.count_cons_of_ne (Ne.symm hne),
          List.count_cons_of_ne (Ne.symm hne), ih]
    · rw [List.takeWhile_cons_of_neg hws, List.takeWhile_cons_of_neg hws]

theorem hasTriple_s2 : ∀ l : List Char, hasTriple (s2 l) = hasTriple l := by
  intro l
  induction l using s2.induct with
  | case1 => rw [s2]
  | case2 c cs hc ih =>
    rw [s2, if_pos hc, hasTriple_notNL (by decide),
      hasTriple_notNL (ht_ne_nl hc), ih, hasTriple_dropHT]
  | case3 c cs hc ih =>
    rw [s2, if_neg hc, hasTriple_cons, hasTriple_cons,
      count_nl_takeWhile_s2, ih]

theorem count_nl_takeWhile_s3 : ∀ l : List Char,
    (((s3 l).takeWhile isPyWs).count '\n') =
    ((l.takeWhile isPyWs).count '\n') := by
  intro l
  induction l using s3.induct with
  | case1 => rw [s3]
  | case2 cs ih =>
    rw [s3, if_pos rfl,
      List.takeWhile_cons_of_pos (show isPyWs '\n' = true by decide),
      List.takeWhile_cons_of_pos (show isPyWs '\n' = true by decide),
      List.count_cons_self, List.count_cons_self, ih,
      count_nl_takeWhile_dropHT]
  | case3 c cs hc ih =>
    rw [s3, if_neg hc]
    by_cases hws : isPyWs c
    · rw [List.takeWhile_cons_of_pos hws, List.takeWhile_cons_of_pos hws]
      rcases eq_or_ne c '\n' with rfl | hne
      · exact absurd rfl hc
      · rw [List.count_cons_of_ne (Ne.symm hne),
          List.count_cons_of_ne (Ne.symm hne), ih]
    · rw [List.takeWhile_cons_of_neg hws, List.takeWhile_cons_of_neg hws]

theorem hasTriple_s3 : ∀ l : List Char, hasTriple (s3 l) = hasTriple l := by
  intro l
  induction l using s3.induct with
  | case1 => rw [s3]
  | case2 cs ih =>
    rw [s3, if_pos rfl, hasTriple_cons, hasTriple_cons,
      count_nl_takeWhile_s3, count_nl_takeWhile_dropHT, ih,
      hasTriple_dropHT]
  | case3 c cs hc ih =>
    rw [s3, if_neg hc, hasTriple_notNL hc, hasTriple_notNL hc]
    exact ih

/-- `s3` preserves the head character. -/
theorem s3_head (x : Char) (xs : List Char) :
    ∃ t, s3 (x :: xs) = x :: t := by
  by_cases hx : x = '\n'
  · subst hx
    exact ⟨s3 (xs.dropWhile isHT), by rw [s3, if_pos rfl]⟩
  · exact ⟨s3 xs, by rw [s3, if_neg hx]⟩

/-- The space-collapsing pass never outputs a tab. -/
theorem s2_no_tab : ∀ l : List Char, '\t' ∉ s2 l := by
  intro l
  induction l using s2.induct with
  | case1 =>
    rw [s2]
    exact List.not_mem_nil _
  | case2 c cs hc ih =>
    rw [s2, if_pos hc]
    intro hmem
    rcases List.mem_cons.1 hmem with h1 | h2
    · exact absurd h1 (by decide)
    · exact ih h2
  | case3 c cs hc ih =>
    rw [s2, if_neg hc]
    intro hmem
    rcases List.mem_cons.1 hmem with h1 | h2
    · exact hc (h1 ▸ (by decide))
    · exact ih h2

/-- The space-collapsing pass leaves no two adjacent horizontal
whitespace characters. -/
theorem s2_noHTpair : ∀ l : List Char, noPair isHT isHT (s2 l) = true := by
  intro l
  induction l using s2.induct with
  | case1 =>
    rw [s2]
    rfl
  | case2 c cs hc ih =>
    rw [s2, if_pos hc]
    rcases dropWhile_shape isHT cs with hnil | ⟨x, xs, heq, hx⟩
    · rw [hnil] at ih ⊢
      rw [s2]
      rfl
    · rw [heq] at ih ⊢
      rw [s2, if_neg (by simp [hx])] at ih ⊢
      rw [noPair, Bool.and_eq_true_iff]
      exact ⟨by simp [hx], ih⟩
  | case3 c cs hc ih =>
    rw [s2, if_neg hc]
    cases hs : s2 cs with
    | nil => rfl
    | cons y ys =>
      rw [hs] at ih
      rw [noPair, Bool.and_eq_true_iff]
      refine ⟨?_, ih⟩
      have hcf : isHT c = false := Bool.eq_false_iff.2 hc
      simp [hcf]

/-- Every character of `s3 l` comes from `l`. -/
theorem mem_s3 : ∀ (l : List Char) (x : Char), x ∈ s3 l → x ∈ l := by
  intro l
  induction l using s3.induct with
  | case1 =>
    intro x hx
    rw [s3] at hx
    cases hx
  | case2 cs ih =>
    intro x hx
    rw [s3, if_pos rfl] at hx
    rcases List.mem_cons.1 hx with rfl | h2
    · exact List.mem_cons_self _ _
    · exact List.mem_cons_of_mem _ (mem_of_mem_dropWhile (ih x h2))
  | case3 c cs hc ih =>
    intro x hx
    rw [s3, if_neg hc] at hx
    rcases List.mem_cons.1 hx with rfl | h2
    · exact List.mem_cons_self _ _
    · exact List.mem_cons_of_mem _ (ih x h2)

/-- `s3` preserves the absence of adjacent horizontal whitespace. -/
theorem s3_noHTpair : ∀ l : List Char,
    noPair isHT isHT l = true → noPair isHT isHT (s3 l) = true := by
  intro l
  induction l using s3.induct with
  | case1 =>
    intro _
    rw [s3]
    rfl
  | case2 cs ih =>
    intro h
    rw [s3, if_pos rfl]
    have hdrop : noPair isHT isHT (cs.dropWhile isHT) = true :=
      noPair_dropWhile _ _ _ (noPair_tail h)
    have ih2 := ih hdrop
    cases hs : s3 (cs.dropWhile isHT) with
    | nil => rfl
    | cons y ys =>
      rw [hs] at ih2
      rw [noPair, Bool.and_eq_true_iff]
      exact ⟨by simp [show isHT '\n' = false by decide], ih2⟩
  | case3 c cs hc ih =>
    intro h
    rw [s3, if_neg hc]
    cases cs with
    | nil =>
      rw [s3]
      rfl
    | cons z zs =>
      have ih2 := ih (noPair_tail h)
      rcases s3_head z zs with ⟨t, ht⟩
      rw [ht] at ih2 ⊢
      rw [noPair, Bool.and_eq_true_iff]
      refine ⟨?_, ih2⟩
      rw [noPair] at h
      exact (Bool.and_eq_true_iff.1 h).1

/-- After `s3`, a newline is never followed by horizontal whitespace. -/
theorem s3_noNLHT : ∀ l : List Char,
    noPair (fun c => c == '\n') isHT (s3 l) = true := by
  intro l
  induction l using s3.induct with
  | case1 =>
    rw [s3]
    rfl
  | case2 cs ih =>
    rw [s3, if_pos rfl]
    rcases dropWhile_shape isHT cs with hnil | ⟨x, xs, heq, hx⟩
    · rw [hnil] at ih ⊢
      rw [s3]
      rfl
    · rw [heq] at ih ⊢
      rcases s3_head x xs with ⟨t, ht⟩
      rw [ht] at ih ⊢
      rw [noPair, Bool.and_eq_true_iff]
      exact ⟨by simp [hx], ih⟩
  | case3 c cs hc ih =>
    rw [s3, if_neg hc]
    cases hs : s3 cs with
    | nil => rfl
    | cons y ys =>
      rw [hs] at ih
      rw [noPair, Bool.and_eq_true_iff]
      refine ⟨?_, ih⟩
      have : (c == '\n') = false := by
        rw [beq_eq_false_iff_ne]
        exact hc
      simp [this]

/-- A tab-free string without adjacent horizontal whitespace is a fixed
point of the space-collapsing pass. -/
theorem s2_fix : ∀ l : List Char, '\t' ∉ l →
    noPair isHT isHT l = true → s2 l = l := by
  intro l
  induction l with
  | nil => intro _ _; rw [s2]
  | cons c cs ih =>
    intro htab hpair
    by_cases hc : isHT c
    · have hsp : c = ' ' := by
        simp only [isHT, Bool.or_eq_true, decide_eq_true_eq] at hc
        rcases hc with h | h
        · exact h
        · exact absurd (h ▸ List.mem_cons_self c cs)
            (h ▸ htab)
      have hdrop : cs.dropWhile isHT = cs := by
        cases cs with
        | nil => rfl
        | cons y ys =>
          rw [noPair] at hpair
          rcases Bool.and_eq_true_iff.1 hpair with ⟨h1, -⟩
          have hy : isHT y = false := by
            have hc' : isHT c = true := hc
            rw [hc'] at h1
            simpa using h1
          rw [List.dropWhile_cons_of_neg (by simp [hy])]
      rw [s2, if_pos hc, hdrop,
        ih (fun hm => htab (List.mem_cons_of_mem c hm)) (noPair_tail hpair),
        hsp]
    · rw [s2, if_neg hc,
        ih (fun hm => htab (List.mem_cons_of_mem c hm)) (noPair_tail hpair)]

/-- A string with no horizontal whitespace after any newline is a fixed
point of the newline-trimming pass. -/
theorem s3_fix : ∀ l : List Char,
    noPair (fun c => c == '\n') isHT l = true → s3 l = l := by
  intro l
  induction l with
  | nil => intro _; rw [s3]
  | cons c cs ih =>
    intro hpair
    by_cases hc : c = '\n'
    · subst hc
      have hdrop : cs.dropWhile isHT = cs := by
        cases cs with
        | nil => rfl
        | cons y ys =>
          rw [noPair] at hpair
          rcases Bool.and_eq_true_iff.1 hpair with ⟨h1, -⟩
          have hy : isHT y = false := by
            simpa using h1
          rw [List.dropWhile_cons_of_neg (by simp [hy])]
      rw [s3, if_pos rfl, hdrop, ih (noPair_tail hpair)]
    · rw [s3, if_neg hc, ih (noPair_tail hpair)]

/-- The kept prefix of the trailing strip, as a decomposition. -/
theorem dropTrail_decomp (l : List Char) :
    ∃ r, dropTrailWs l ++ r = l := by
  refine ⟨(l.reverse.takeWhile isPyWs).reverse, ?_⟩
  unfold dropTrailWs
  rw [show (l.reverse.dropWhile isPyWs).reverse ++
        (l.reverse.takeWhile isPyWs).reverse =
      ((l.reverse.takeWhile isPyWs) ++ (l.reverse.dropWhile isPyWs)).reverse
    from (List.reverse_append _ _).symm]
  rw [List.takeWhile_append_dropWhile, List.reverse_reverse]

theorem mem_pyStrip {l : List Char} {x : Char} (h : x ∈ pyStrip l) :
    x ∈ l := by
  unfold pyStrip at h
  rcases dropTrail_decomp (l.dropWhile isPyWs) with ⟨r, hr⟩
  have h2 : x ∈ dropTrailWs (l.dropWhile isPyWs) ++ r :=
    List.mem_append_left _ h
  rw [hr] at h2
  exact mem_of_mem_dropWhile h2

theorem hasTriple_pyStrip {l : List Char} (h : hasTriple l = false) :
    hasTriple (pyStrip l) = false := by
  unfold pyStrip
  rcases dropTrail_decomp (l.dropWhile isPyWs) with ⟨r, hr⟩
  refine hasTriple_of_append_left (m := r) ?_
  rw [hr]
  exact hasTriple_dropWhile _ h

theorem noPair_pyStrip {p q : Char → Bool} {l : List Char}
    (h : noPair p q l = true) : noPair p q (pyStrip l) = true := by
  unfold pyStrip
  rcases dropTrail_decomp (l.dropWhile isPyWs) with ⟨r, hr⟩
  refine noPair_of_append_left (m := r) ?_
  rw [hr]
  exact noPair_dropWhile _ _ _ h

/-- Stripping is idempotent. -/
theorem pyStrip_idem (l : List Char) : pyStrip (pyStrip l) = pyStrip l := by
  unfold pyStrip
  have hdw : (dropTrailWs (l.dropWhile isPyWs)).dropWhile isPyWs =
      dropTrailWs (l.dropWhile isPyWs) := by
    cases hz : dropTrailWs (l.dropWhile isPyWs) with
    | nil => rfl
    | cons a as =>
      rcases dropTrail_decomp (l.dropWhile isPyWs) with ⟨r, hr⟩
      rw [hz] at hr
      rcases dropWhile_shape isPyWs l with hnil | ⟨x, xs, heq, hx⟩
      · rw [hnil] at hr
        exact absurd hr (by simp)
      · rw [heq, List.cons_append] at hr
        have ha : a = x := (List.cons.injEq _ _ _ _ ▸ hr).1
        rw [List.dropWhile_cons_of_neg (by simp [ha ▸ hx])]
  rw [hdw]
  unfold dropTrailWs
  rw [List.reverse_reverse, dropWhile_dropWhile]

/-- C8.  The whitespace normalization of `_get_clean_text` is idempotent:
applied to its own output it returns the same string. -/
theorem cleanNorm_idempotent (t : List Char) :
    cleanNorm (cleanNorm t) = cleanNorm t := by
  have hT : hasTriple (cleanNorm t) = false := by
    unfold cleanNorm
    apply hasTriple_pyStrip
    rw [hasTriple_s3, hasTriple_s2]
    exact hasTriple_s1 t
  have htab : '\t' ∉ cleanNorm t := by
    unfold cleanNorm
    intro h
    exact s2_no_tab (s1 t) (mem_s3 _ _ (mem_pyStrip h))
  have hpair : noPair isHT isHT (cleanNorm t) = true := by
    unfold cleanNorm
    exact noPair_pyStrip (s3_noHTpair _ (s2_noHTpair (s1 t)))
  have hnlht : noPair (fun c => c == '\n') isHT (cleanNorm t) = true := by
    unfold cleanNorm
    exact noPair_pyStrip (s3_noNLHT _)
  conv_lhs => rw [cleanNorm]
  rw [s1_fix hT, s2_fix _ htab hpair, s3_fix _ hnlht]
  rw [cleanNorm]
  exact pyStrip_idem _
